import Mathlib

set_option maxHeartbeats 1000000

namespace IDP

/-- Whitespace predicate for the text model: space, tab, newline, carriage
return. -/
def isWs (c : Char) : Bool :=
  c == ' ' || c == '\t' || c == '\n' || c == '\r'

/-- Remove every whitespace character; two texts with the same `stripWs`
image carry the same content up to whitespace normalization. -/
def stripWs (t : List Char) : List Char :=
  t.filter (fun c => !isWs c)

/-- Python `str.strip`: drop leading and trailing whitespace
(src/app.py line 201). -/
def trim (t : List Char) : List Char :=
  ((t.dropWhile isWs).reverse.dropWhile isWs).reverse

/-- Embeds src/app.py lines 201-204: strip every page text, then drop the
pages that are empty after stripping. -/
def extractPages (pages : List (List Char)) : List (List Char) :=
  (pages.map trim).filter (fun t => !t.isEmpty)

/-- Embeds src/app.py line 211: join the retained page texts with a blank
line, as in the Python double newline join. -/
def joinPages : List (List Char) → List Char
  | [] => []
  | [p] => p
  | p :: q :: ps => p ++ '\n' :: '\n' :: joinPages (q :: ps)

/-- Modelled from the spec (section 4.1): the parse step of the Extractor.
The PDF parser is an external library, absent from src/; `none` stands for a
document the parser cannot parse at all, `some pages` for a parsed document
with its raw page texts.  The strip and filter steps embed src/app.py lines
201-204. -/
inductive ExtractionError where
  | unparseable
deriving DecidableEq

/-- Modelled from the spec (section 4.1): full Extractor.  The parse failure
case follows the spec because the parser is external; the page processing
follows src/app.py lines 201-204, which apply no page count check. -/
def extractDoc : Option (List (List Char)) → Except ExtractionError (List (List Char))
  | none => Except.error ExtractionError.unparseable
  | some pages => Except.ok (extractPages pages)

/-- True exactly on the error branch of an `Except`. -/
def isError : Except ε α → Bool
  | Except.error _ => true
  | Except.ok _ => false

/-- Modelled from the spec (section 4.2, stage 1): splitting on one
separator.  The recursive character splitter is external library code absent
from src/; following the coverage invariant of the spec, a separator
occurrence ends the current piece and the separator stays attached to that
piece, so the pieces concatenate back to the input exactly.  `acc` holds the
current piece reversed. -/
def splitKeepAux (sep : List Char) : List Char → List Char → List (List Char)
  | [], acc => [acc.reverse]
  | c :: rest, acc =>
    if sep.reverse.isPrefixOf (c :: acc) then
      (c :: acc).reverse :: splitKeepAux sep rest []
    else
      splitKeepAux sep rest (c :: acc)

/-- Split on one separator, dropping empty pieces. -/
def splitKeep (sep : List Char) (t : List Char) : List (List Char) :=
  (splitKeepAux sep t []).filter (fun p => !p.isEmpty)

/-- Modelled from the spec (section 4.2): the fallback that splits on raw
character boundaries at the character budget `cs`.  The `fuel` argument only
bounds the recursion; it never runs out when it starts at the text length. -/
def forceSplitAux (cs : Nat) : Nat → List Char → List (List Char)
  | _, [] => []
  | 0, t => [t]
  | fuel + 1, t =>
    if t.length ≤ cs ∨ cs = 0 then [t]
    else t.take cs :: forceSplitAux cs fuel (t.drop cs)

/-- Split on raw character boundaries at the character budget `cs`. -/
def forceSplit (cs : Nat) (t : List Char) : List (List Char) :=
  forceSplitAux cs t.length t

/-- Modelled from the spec (section 4.2): greedy merge of adjacent pieces
whose combined length stays within the character budget; `cur` is the piece
being accumulated. -/
def mergeAdjAux (cs : Nat) : List Char → List (List Char) → List (List Char)
  | cur, [] => [cur]
  | cur, q :: rest =>
    if cur.length + q.length ≤ cs then mergeAdjAux cs (cur ++ q) rest
    else cur :: mergeAdjAux cs q rest

/-- Merge adjacent pieces whose combined length stays within `cs`. -/
def mergeAdj (cs : Nat) : List (List Char) → List (List Char)
  | [] => []
  | p :: rest => mergeAdjAux cs p rest

/-- The separator list of src/app.py line 209: double newline, newline,
sentence boundary, space, and the empty separator meaning split anywhere. -/
def sepList : List (List Char) := [['\n', '\n'], ['\n'], ['.', ' '], [' '], []]

/-- Modelled from the spec (section 3 invariant): every produced segment is
stripped of leading and trailing whitespace and segments that become empty
are dropped, so a segment is never empty or whitespace only. -/
def stripPieces (l : List (List Char)) : List (List Char) :=
  (l.map trim).filter (fun p => !p.isEmpty)

/-- Modelled from the spec (section 4.2, stage 1): recursive character
split.  Split on the first separator, re-split every oversized piece with
the remaining separators, merge adjacent small pieces; the empty separator
and an exhausted separator list fall back to raw character splitting.  The
emitted segments are stripped and empty ones dropped, enforcing the
section 3 invariant that a segment is non empty and non whitespace only. -/
def splitRec (cs : Nat) : List (List Char) → List Char → List (List Char)
  | [], t => stripPieces (forceSplit cs t)
  | sep :: rest, t =>
    if sep.isEmpty then stripPieces (forceSplit cs t)
    else
      stripPieces (mergeAdj cs (List.flatten ((splitKeep sep t).map
        (fun p => if cs < p.length then splitRec cs rest p else [p]))))

/-- Word scanner for the modelled tokenizer; `acc` holds the current token
reversed. -/
def wordsAux : List Char → List Char → List (List Char)
  | [], acc => if acc.isEmpty then [] else [acc.reverse]
  | c :: rest, acc =>
    if isWs c then
      if acc.isEmpty then wordsAux rest [] else acc.reverse :: wordsAux rest []
    else wordsAux rest (c :: acc)

/-- Modelled from the spec: the fixed tokenizer (the sentence transformer
tokenizer is external, absent from src/); tokens are the maximal whitespace
free runs of the text. -/
def tokenize (t : List Char) : List (List Char) := wordsAux t []

/-- Modelled from the spec: detokenization rejoins tokens with single
spaces; this is the whitespace normalization at chunk boundaries. -/
def detok : List (List Char) → List Char
  | [] => []
  | [w] => w
  | w :: v :: ws => w ++ ' ' :: detok (v :: ws)

/-- Modelled from the spec (section 4.2, stage 2): consecutive groups of at
most `tb` tokens, every group except the last of exactly `tb` tokens.  The
`fuel` argument only bounds the recursion. -/
def groupTokAux (tb : Nat) : Nat → List (List Char) → List (List (List Char))
  | _, [] => []
  | 0, ws => [ws]
  | fuel + 1, w :: rest =>
    if tb = 0 then [w :: rest]
    else (w :: rest).take tb :: groupTokAux tb fuel ((w :: rest).drop tb)

/-- Split a token list into consecutive groups of `tb` tokens. -/
def groupTok (tb : Nat) (ws : List (List Char)) : List (List (List Char)) :=
  groupTokAux tb ws.length ws

/-- Modelled from the spec (section 4.2, stage 2): a stage 1 segment within
the token budget passes through unchanged; otherwise it is split into
consecutive token aligned groups of the token budget size. -/
def tokenSplit (tb : Nat) (s : List Char) : List (List Char) :=
  if (tokenize s).length ≤ tb then [s]
  else (groupTok tb (tokenize s)).map detok

/-- Embeds the pipeline of src/app.py lines 200-222: extract and filter the
page texts, join them with a blank line, run stage 1 with chunk size 1000
and the separator list of line 209, then stage 2 with token budget 256 over
each stage 1 segment, concatenating the results in order. -/
def chunkPipeline (pages : List (List Char)) : List (List Char) :=
  List.flatten ((splitRec 1000 sepList (joinPages (extractPages pages))).map (tokenSplit 256))

/-- Decimal digit character, as in Python `str`. -/
def digitChar (n : Nat) : Char :=
  match n with
  | 0 => '0' | 1 => '1' | 2 => '2' | 3 => '3' | 4 => '4'
  | 5 => '5' | 6 => '6' | 7 => '7' | 8 => '8' | _ => '9'

/-- Decimal digits of a natural number, most significant first; the `fuel`
argument only bounds the recursion. -/
def natToDecAux : Nat → Nat → List Char
  | 0, n => [digitChar n]
  | fuel + 1, n =>
    if n < 10 then [digitChar n]
    else natToDecAux fuel (n / 10) ++ [digitChar (n % 10)]

/-- Decimal representation of a natural number, as the Python `str(i)` of
src/app.py line 230. -/
def natToDec (n : Nat) : List Char :=
  natToDecAux n n

/-- Numeric value of a digit character. -/
def digitVal (c : Char) : Nat := c.toNat - 48

/-- Numeric value of a decimal digit string. -/
def decVal (l : List Char) : Nat :=
  l.foldl (fun a c => 10 * a + digitVal c) 0

/-- Strict lexicographic comparison of strings, byte by byte. -/
def lexLt : List Char → List Char → Bool
  | [], [] => false
  | [], _ :: _ => true
  | _ :: _, [] => false
  | a :: as, b :: bs => if a = b then lexLt as bs else decide (a < b)

/-- Embeds src/app.py line 230: the ids handed to the vector database are
the decimal strings of the chunk positions. -/
def mkIds (n : Nat) : List (List Char) :=
  (List.range n).map natToDec

/-- An entry of the modelled Index: id string, chunk text, embedding
vector. -/
structure Entry where
  id : List Char
  text : List Char
  vec : List Int
deriving DecidableEq

/-- Modelled from the spec (sections 3 and 4.4): the Index is an in memory
list of entries in insertion order; the vector store itself is the external
chroma collection, absent from src/. -/
structure Index where
  entries : List Entry
deriving DecidableEq

/-- Modelled from the spec (section 4.4): squared Euclidean distance, the
fixed metric of the modelled Index. -/
def sqDist (u v : List Int) : Int :=
  (List.zipWith (fun a b => (a - b) * (a - b)) u v).foldl (· + ·) 0

/-- Error kinds of the modelled Index (spec section 7). -/
inductive IndexErr where
  | invalidTopK
  | embedFailed
  | countMismatch
deriving DecidableEq

/-- A query candidate: insertion position, entry, distance to the query. -/
abbrev Scored := Nat × Entry × Int

/-- Candidate `a` precedes candidate `b` in a query result: strictly
smaller distance, or equal distance and earlier insertion position. -/
def scoredBefore (a b : Scored) : Prop :=
  a.2.2 < b.2.2 ∨ (a.2.2 = b.2.2 ∧ a.1 < b.1)

/-- Insert a candidate behind every candidate of smaller or equal distance,
so that candidates of equal distance keep insertion order. -/
def insertScored (e : Scored) : List Scored → List Scored
  | [] => [e]
  | x :: xs => if x.2.2 ≤ e.2.2 then x :: insertScored e xs else e :: x :: xs

/-- Stable sort of the candidates by distance. -/
def sortScored (l : List Scored) : List Scored :=
  l.foldl (fun acc e => insertScored e acc) []

/-- The scored candidate list of a query: every entry with its insertion
position and its distance to the query vector. -/
def Index.scored (idx : Index) (qv : List Int) : List Scored :=
  idx.entries.enum.map (fun p => (p.1, p.2, sqDist qv p.2.vec))

/-- Modelled from the spec (section 4.4): nearest neighbor query.  The
query embedding is delegated to the external Embedder, so the query arrives
here as a vector; a non positive `top_k` is rejected, otherwise the `top_k`
lowest distance candidates are returned in ascending distance order with
ties broken by insertion order. -/
def Index.query (idx : Index) (qv : List Int) (k : Int) : Except IndexErr (List Scored) :=
  if k ≤ 0 then Except.error IndexErr.invalidTopK
  else Except.ok ((sortScored (idx.scored qv)).take k.toNat)

/-- Modelled from the spec (section 4.3): outcome of one batch call to the
external Embedder, either a vector per input text or an explicit failure. -/
inductive EmbedResult where
  | ok (vs : List (List Int))
  | fail
deriving DecidableEq

/-- New entries for a batch, ids assigned in insertion order from `start`
as in src/app.py line 230. -/
def mkEntries (start : Nat) : List (List Char) → List (List Int) → List Entry
  | [], _ => []
  | _, [] => []
  | t :: ts, v :: vs => ⟨natToDec start, t, v⟩ :: mkEntries (start + 1) ts vs

/-- Modelled from the spec (section 4.4): batch insertion.  The whole batch
is embedded by one external call whose outcome is `r`; on failure or on a
count mismatch nothing is committed and the call fails with an Index
error. -/
def Index.add (idx : Index) (texts : List (List Char)) : EmbedResult → Except IndexErr Index
  | EmbedResult.fail => Except.error IndexErr.embedFailed
  | EmbedResult.ok vs =>
    if vs.length = texts.length
    then Except.ok ⟨idx.entries ++ mkEntries idx.entries.length texts vs⟩
    else Except.error IndexErr.countMismatch

/-- The session state after an `add` call: the new index on success, the
unchanged index on failure. -/
def Index.addOrKeep (idx : Index) (texts : List (List Char)) (r : EmbedResult) : Index :=
  match idx.add texts r with
  | Except.ok j => j
  | Except.error _ => idx

namespace Lemmas

/-- Dropping the empty pieces does not change the concatenation. -/
theorem flatten_filter_nonempty (l : List (List Char)) :
    (l.filter (fun p => !p.isEmpty)).flatten = l.flatten := by
  induction l with
  | nil => rfl
  | cons p rest ih =>
    by_cases hp : p.isEmpty
    · have : p = [] := by simpa [List.isEmpty_iff] using hp
      simp [List.filter_cons, hp, ih, this]
    · simp [List.filter_cons, hp, ih]

/-- The split pieces of one separator concatenate back to the input. -/
theorem splitKeepAux_flatten (sep : List Char) :
    ∀ (t acc : List Char), (splitKeepAux sep t acc).flatten = acc.reverse ++ t := by
  intro t
  induction t with
  | nil => intro acc; simp [splitKeepAux]
  | cons c rest ih =>
    intro acc
    by_cases h : sep.reverse.isPrefixOf (c :: acc)
    · simp [splitKeepAux, h, ih]
    · simp [splitKeepAux, h, ih]

/-- `splitKeep` pieces concatenate back to the input. -/
theorem splitKeep_flatten (sep t : List Char) :
    (splitKeep sep t).flatten = t := by
  unfold splitKeep
  rw [flatten_filter_nonempty, splitKeepAux_flatten]
  simp

/-- Fuel does not matter to `forceSplitAux` as long as it covers the text
length. -/
theorem forceSplitAux_fuel (cs : Nat) :
    ∀ (f₁ f₂ : Nat) (t : List Char), t.length ≤ f₁ → t.length ≤ f₂ →
      forceSplitAux cs f₁ t = forceSplitAux cs f₂ t := by
  intro f₁
  induction f₁ with
  | zero =>
    intro f₂ t h₁ _
    have : t = [] := by
      cases t with
      | nil => rfl
      | cons a l => simp at h₁
    subst this
    cases f₂ <;> rfl
  | succ f ih =>
    intro f₂ t h₁ h₂
    cases t with
    | nil => cases f₂ <;> rfl
    | cons a l =>
      cases f₂ with
      | zero => simp at h₂
      | succ f₂ =>
        show (if (a :: l).length ≤ cs ∨ cs = 0 then [a :: l]
              else (a :: l).take cs :: forceSplitAux cs f ((a :: l).drop cs)) =
             (if (a :: l).length ≤ cs ∨ cs = 0 then [a :: l]
              else (a :: l).take cs :: forceSplitAux cs f₂ ((a :: l).drop cs))
        by_cases h : (a :: l).length ≤ cs ∨ cs = 0
        · simp only [List.length_cons] at h ⊢
          simp [h]
        · have hcs : 0 < cs := by omega
          have hlen : ((a :: l).drop cs).length ≤ f := by
            rw [List.length_drop]; simp at h₁ ⊢; omega
          have hlen₂ : ((a :: l).drop cs).length ≤ f₂ := by
            rw [List.length_drop]; simp at h₂ ⊢; omega
          simp only [if_neg h]
          rw [ih _ _ hlen hlen₂]

/-- The raw character split pieces concatenate back to the input. -/
theorem forceSplit_flatten (cs : Nat) (t : List Char) :
    (forceSplit cs t).flatten = t := by
  suffices h : ∀ (f : Nat) (t : List Char), t.length ≤ f →
      (forceSplitAux cs f t).flatten = t by
    exact h t.length t le_rfl
  intro f
  induction f with
  | zero =>
    intro t h
    have : t = [] := by
      cases t with
      | nil => rfl
      | cons a l => simp at h
    subst this; rfl
  | succ f ih =>
    intro t h
    cases t with
    | nil => rfl
    | cons a l =>
      show (if (a :: l).length ≤ cs ∨ cs = 0 then [a :: l]
            else (a :: l).take cs :: forceSplitAux cs f ((a :: l).drop cs)).flatten = a :: l
      by_cases hc : (a :: l).length ≤ cs ∨ cs = 0
      · simp only [List.length_cons] at hc ⊢
        simp [hc]
      · have hlen : ((a :: l).drop cs).length ≤ f := by
          rw [List.length_drop]; simp at h ⊢; omega
        simp only [if_neg hc, List.flatten_cons, ih _ hlen]
        exact List.take_append_drop cs (a :: l)

/-- The merged pieces concatenate back to the given pieces. -/
theorem mergeAdjAux_flatten (cs : Nat) :
    ∀ (l : List (List Char)) (cur : List Char),
      (mergeAdjAux cs cur l).flatten = cur ++ l.flatten := by
  intro l
  induction l with
  | nil => intro cur; simp [mergeAdjAux]
  | cons q rest ih =>
    intro cur
    by_cases h : cur.length + q.length ≤ cs
    · simp [mergeAdjAux, h, ih]
    · simp [mergeAdjAux, h, ih]

/-- Merging adjacent pieces does not change the concatenation. -/
theorem mergeAdj_flatten (cs : Nat) (l : List (List Char)) :
    (mergeAdj cs l).flatten = l.flatten := by
  cases l with
  | nil => rfl
  | cons p rest => simp [mergeAdj, mergeAdjAux_flatten]

/-- The words scanned so far concatenate to the non whitespace content. -/
theorem wordsAux_flatten :
    ∀ (t acc : List Char), (wordsAux t acc).flatten = acc.reverse ++ stripWs t := by
  intro t
  induction t with
  | nil =>
    intro acc
    by_cases h : acc.isEmpty
    · have : acc = [] := by simpa [List.isEmpty_iff] using h
      simp [wordsAux, h, this, stripWs]
    · simp [wordsAux, h, stripWs]
  | cons c rest ih =>
    intro acc
    by_cases h : isWs c
    · by_cases ha : acc.isEmpty
      · have : acc = [] := by simpa [List.isEmpty_iff] using ha
        simp [wordsAux, h, ha, this, ih, stripWs]
      · simp [wordsAux, h, ha, ih, stripWs]
    · simp [wordsAux, h, ih, stripWs]

/-- The tokens of a text concatenate to its non whitespace content. -/
theorem tokenize_flatten (t : List Char) :
    (tokenize t).flatten = stripWs t := by
  simpa using wordsAux_flatten t []

/-- Every token is non empty and whitespace free. -/
theorem wordsAux_mem :
    ∀ (t acc : List Char), (∀ x ∈ acc, isWs x = false) →
      ∀ w ∈ wordsAux t acc, w ≠ [] ∧ ∀ x ∈ w, isWs x = false := by
  intro t
  induction t with
  | nil =>
    intro acc hacc w hw
    by_cases h : acc.isEmpty
    · simp [wordsAux, h] at hw
    · have : acc ≠ [] := by simpa [List.isEmpty_iff] using h
      simp only [wordsAux, h, Bool.false_eq_true, if_false, List.mem_singleton] at hw
      subst hw
      refine ⟨by simpa using this, ?_⟩
      intro x hx
      exact hacc x (List.mem_reverse.mp hx)
  | cons c rest ih =>
    intro acc hacc w hw
    by_cases h : isWs c
    · by_cases ha : acc.isEmpty
      · rw [wordsAux, if_pos h, if_pos ha] at hw
        exact ih [] (by simp) w hw
      · rw [wordsAux, if_pos h, if_neg ha] at hw
        rcases List.mem_cons.mp hw with hw | hw
        · subst hw
          have : acc ≠ [] := by simpa [List.isEmpty_iff] using ha
          refine ⟨by simpa using this, ?_⟩
          intro x hx
          exact hacc x (List.mem_reverse.mp hx)
        · exact ih [] (by simp) w hw
    · rw [wordsAux, if_neg h] at hw
      refine ih (c :: acc) ?_ w hw
      intro x hx
      rcases List.mem_cons.mp hx with hx | hx
      · subst hx; simpa using h
      · exact hacc x hx

/-- Every token of `tokenize` is non empty and whitespace free. -/
theorem tokenize_mem (t : List Char) :
    ∀ w ∈ tokenize t, w ≠ [] ∧ ∀ x ∈ w, isWs x = false :=
  wordsAux_mem t [] (by simp)

/-- Detokenization preserves the non whitespace content. -/
theorem stripWs_detok :
    ∀ (g : List (List Char)), (∀ w ∈ g, ∀ x ∈ w, isWs x = false) →
      stripWs (detok g) = g.flatten := by
  intro g
  induction g with
  | nil => intro _; rfl
  | cons w g ih =>
    intro h
    cases g with
    | nil =>
      show stripWs w = w ++ []
      rw [List.append_nil]
      exact List.filter_eq_self.mpr (by intro a ha; simpa using h w (by simp) a ha)
    | cons v g =>
      show stripWs (w ++ ' ' :: detok (v :: g)) = w ++ (v :: g).flatten
      unfold stripWs
      rw [List.filter_append, List.filter_cons]
      have hw : List.filter (fun c => !isWs c) w = w :=
        List.filter_eq_self.mpr (by intro a ha; simpa using h w (by simp) a ha)
      have hsp : (!isWs ' ') = false := by decide
      rw [hw, hsp]
      simp only [Bool.false_eq_true, if_false]
      have := ih (by intro u hu x hx; exact h u (List.mem_cons_of_mem w hu) x hx)
      unfold stripWs at this
      rw [this]

/-- Scanning a whitespace free run pushes it onto the accumulator. -/
theorem wordsAux_push :
    ∀ (w rest acc : List Char), (∀ x ∈ w, isWs x = false) →
      wordsAux (w ++ rest) acc = wordsAux rest (w.reverse ++ acc) := by
  intro w
  induction w with
  | nil => intro rest acc _; simp
  | cons c w ih =>
    intro rest acc h
    have hc : isWs c = false := h c (by simp)
    show wordsAux (c :: (w ++ rest)) acc = wordsAux rest ((c :: w).reverse ++ acc)
    rw [wordsAux, if_neg (by simp [hc])]
    rw [ih rest (c :: acc) (by intro x hx; exact h x (List.mem_cons_of_mem c hx))]
    simp

/-- Tokenizing a detokenized token group recovers the group. -/
theorem tokenize_detok :
    ∀ (g : List (List Char)), (∀ w ∈ g, w ≠ [] ∧ ∀ x ∈ w, isWs x = false) →
      tokenize (detok g) = g := by
  intro g
  induction g with
  | nil => intro _; rfl
  | cons w g ih =>
    intro h
    have hw := h w (by simp)
    cases g with
    | nil =>
      show tokenize w = [w]
      unfold tokenize
      have hp := wordsAux_push w [] [] hw.2
      rw [List.append_nil] at hp
      rw [hp]
      have : w.reverse.isEmpty = false := by
        simp [List.isEmpty_iff, hw.1]
      simp [wordsAux, this]
    | cons v g =>
      show wordsAux (w ++ ' ' :: detok (v :: g)) [] = w :: v :: g
      rw [wordsAux_push w (' ' :: detok (v :: g)) [] hw.2]
      rw [wordsAux, if_pos (by decide), if_neg (by simp [List.isEmpty_iff, hw.1])]
      have := ih (by intro u hu; exact h u (List.mem_cons_of_mem w hu))
      unfold tokenize at this
      simp [this]

/-- Fuel does not matter to the token grouping as long as it covers the
token count. -/
theorem groupTokAux_fuel (tb : Nat) :
    ∀ (f₁ f₂ : Nat) (ws : List (List Char)), ws.length ≤ f₁ → ws.length ≤ f₂ →
      groupTokAux tb f₁ ws = groupTokAux tb f₂ ws := by
  intro f₁
  induction f₁ with
  | zero =>
    intro f₂ ws h₁ _
    have : ws = [] := by
      cases ws with
      | nil => rfl
      | cons a l => simp at h₁
    subst this
    cases f₂ <;> rfl
  | succ f ih =>
    intro f₂ ws h₁ h₂
    cases ws with
    | nil => cases f₂ <;> rfl
    | cons w rest =>
      cases f₂ with
      | zero => simp at h₂
      | succ f₂ =>
        show (if tb = 0 then [w :: rest]
              else (w :: rest).take tb :: groupTokAux tb f ((w :: rest).drop tb)) =
             (if tb = 0 then [w :: rest]
              else (w :: rest).take tb :: groupTokAux tb f₂ ((w :: rest).drop tb))
        by_cases h : tb = 0
        · simp [h]
        · have hl : ((w :: rest).drop tb).length ≤ f := by
            rw [List.length_drop]; simp at h₁ ⊢; omega
          have hl₂ : ((w :: rest).drop tb).length ≤ f₂ := by
            rw [List.length_drop]; simp at h₂ ⊢; omega
          simp only [if_neg h]
          rw [ih _ _ hl hl₂]

/-- The token groups concatenate back to the token list. -/
theorem groupTok_flatten (tb : Nat) (ws : List (List Char)) :
    (groupTok tb ws).flatten = ws := by
  suffices h : ∀ (f : Nat) (ws : List (List Char)), ws.length ≤ f →
      (groupTokAux tb f ws).flatten = ws by
    exact h ws.length ws le_rfl
  intro f
  induction f with
  | zero =>
    intro ws h
    have : ws = [] := by
      cases ws with
      | nil => rfl
      | cons a l => simp at h
    subst this; rfl
  | succ f ih =>
    intro ws h
    cases ws with
    | nil => rfl
    | cons w rest =>
      show (if tb = 0 then [w :: rest]
            else (w :: rest).take tb :: groupTokAux tb f ((w :: rest).drop tb)).flatten = w :: rest
      by_cases htb : tb = 0
      · simp [htb]
      · have hl : ((w :: rest).drop tb).length ≤ f := by
          rw [List.length_drop]; simp at h ⊢; omega
        simp only [if_neg htb, List.flatten_cons, ih _ hl]
        exact List.take_append_drop tb (w :: rest)

/-- Every token group is non empty, within the token budget, and drawn from
the token list. -/
theorem groupTok_mem (tb : Nat) (htb : tb ≠ 0) (ws : List (List Char)) :
    ∀ g ∈ groupTok tb ws, g ≠ [] ∧ g.length ≤ tb ∧ ∀ w ∈ g, w ∈ ws := by
  suffices h : ∀ (f : Nat) (ws : List (List Char)), ws.length ≤ f →
      ∀ g ∈ groupTokAux tb f ws, g ≠ [] ∧ g.length ≤ tb ∧ ∀ w ∈ g, w ∈ ws by
    exact h ws.length ws le_rfl
  intro f
  induction f with
  | zero =>
    intro ws h g hg
    have : ws = [] := by
      cases ws with
      | nil => rfl
      | cons a l => simp at h
    subst this; simp [groupTokAux] at hg
  | succ f ih =>
    intro ws h g hg
    cases ws with
    | nil => simp [groupTokAux] at hg
    | cons w rest =>
      rw [show groupTokAux tb (f + 1) (w :: rest) =
            (if tb = 0 then [w :: rest]
             else (w :: rest).take tb :: groupTokAux tb f ((w :: rest).drop tb)) from rfl,
          if_neg htb] at hg
      rcases List.mem_cons.mp hg with hg | hg
      · subst hg
        refine ⟨?_, ?_, ?_⟩
        · rw [Ne, List.take_eq_nil_iff]
          simp [htb]
        · simp
        · intro u hu; exact List.take_subset tb (w :: rest) hu
      · have hl : ((w :: rest).drop tb).length ≤ f := by
          rw [List.length_drop]; simp at h ⊢; omega
        rcases ih _ hl g hg with ⟨h1, h2, h3⟩
        exact ⟨h1, h2, fun u hu => List.drop_subset tb (w :: rest) (h3 u hu)⟩

/-- Stripping whitespace distributes over concatenation of chunk lists. -/
theorem stripWs_flatten (L : List (List Char)) :
    stripWs L.flatten = (L.map stripWs).flatten := by
  unfold stripWs
  exact List.filter_flatten (fun c => !isWs c) L

/-- Stage 2 preserves the non whitespace content of a segment. -/
theorem tokenSplit_coverage (tb : Nat) (htb : tb ≠ 0) (s : List Char) :
    stripWs (tokenSplit tb s).flatten = stripWs s := by
  unfold tokenSplit
  by_cases h : (tokenize s).length ≤ tb
  · simp [h]
  · simp only [h, if_false]
    rw [stripWs_flatten, List.map_map]
    have hcongr : ∀ g ∈ groupTok tb (tokenize s),
        (stripWs ∘ detok) g = List.flatten g := by
      intro g hg
      have hsub := (groupTok_mem tb htb (tokenize s) g hg).2.2
      exact stripWs_detok g
        (fun w hw => (tokenize_mem s w (hsub w hw)).2)
    rw [List.map_congr_left hcongr, ← List.flatten_flatten, groupTok_flatten,
        tokenize_flatten]

/-- Every stage 2 output chunk is non empty, non whitespace only, and
within the token budget. -/
theorem tokenSplit_mem (tb : Nat) (htb : tb ≠ 0) (s : List Char)
    (hs : stripWs s ≠ []) :
    ∀ c ∈ tokenSplit tb s, c ≠ [] ∧ stripWs c ≠ [] ∧ (tokenize c).length ≤ tb := by
  have hsne : s ≠ [] := by
    intro h
    rw [h] at hs
    exact hs rfl
  intro c hc
  unfold tokenSplit at hc
  by_cases h : (tokenize s).length ≤ tb
  · rw [if_pos h] at hc
    rcases List.mem_singleton.mp hc with rfl
    exact ⟨hsne, hs, h⟩
  · rw [if_neg h, List.mem_map] at hc
    rcases hc with ⟨g, hg, rfl⟩
    rcases groupTok_mem tb htb (tokenize s) g hg with ⟨hg1, hg2, hg3⟩
    have htoks : ∀ w ∈ g, w ≠ [] ∧ ∀ x ∈ w, isWs x = false :=
      fun w hw => tokenize_mem s w (hg3 w hw)
    have hws : stripWs (detok g) ≠ [] := by
      rw [stripWs_detok g (fun w hw => (htoks w hw).2)]
      cases g with
      | nil => exact absurd rfl hg1
      | cons w g =>
        have hw := (htoks w (by simp)).1
        rw [List.flatten_cons]
        simp [hw]
    refine ⟨?_, hws, ?_⟩
    · intro hnil
      rw [hnil] at hws
      exact hws rfl
    · rw [tokenize_detok g htoks]
      exact hg2

/-- Raw character splitting emits no empty piece. -/
theorem forceSplitAux_ne_nil (cs : Nat) (hcs : 0 < cs) :
    ∀ (f : Nat) (t : List Char), ∀ p ∈ forceSplitAux cs f t, p ≠ [] := by
  intro f
  induction f with
  | zero =>
    intro t p hp
    cases t with
    | nil => simp [forceSplitAux] at hp
    | cons a l =>
      rcases List.mem_singleton.mp hp with rfl
      simp
  | succ f ih =>
    intro t p hp
    cases t with
    | nil => simp [forceSplitAux] at hp
    | cons a l =>
      rw [show forceSplitAux cs (f + 1) (a :: l) =
            (if (a :: l).length ≤ cs ∨ cs = 0 then [a :: l]
             else (a :: l).take cs :: forceSplitAux cs f ((a :: l).drop cs)) from rfl] at hp
      by_cases h : (a :: l).length ≤ cs ∨ cs = 0
      · rw [if_pos h] at hp
        rcases List.mem_singleton.mp hp with rfl
        simp
      · rw [if_neg h] at hp
        rcases List.mem_cons.mp hp with rfl | hp
        · rw [Ne, List.take_eq_nil_iff]
          simp
          omega
        · exact ih _ p hp

/-- `forceSplit` emits no empty piece. -/
theorem forceSplit_ne_nil (cs : Nat) (hcs : 0 < cs) (t : List Char) :
    ∀ p ∈ forceSplit cs t, p ≠ [] :=
  forceSplitAux_ne_nil cs hcs t.length t

/-- `splitKeep` emits no empty piece. -/
theorem splitKeep_ne_nil (sep t : List Char) :
    ∀ p ∈ splitKeep sep t, p ≠ [] := by
  intro p hp
  have := (List.mem_filter.mp hp).2
  simpa [List.isEmpty_iff] using this

/-- Merging non empty pieces yields non empty pieces. -/
theorem mergeAdjAux_ne_nil (cs : Nat) :
    ∀ (l : List (List Char)) (cur : List Char), cur ≠ [] → (∀ q ∈ l, q ≠ []) →
      ∀ p ∈ mergeAdjAux cs cur l, p ≠ [] := by
  intro l
  induction l with
  | nil =>
    intro cur hcur _ p hp
    rcases List.mem_singleton.mp hp with rfl
    exact hcur
  | cons q rest ih =>
    intro cur hcur hl p hp
    by_cases h : cur.length + q.length ≤ cs
    · rw [show mergeAdjAux cs cur (q :: rest) =
            (if cur.length + q.length ≤ cs then mergeAdjAux cs (cur ++ q) rest
             else cur :: mergeAdjAux cs q rest) from rfl, if_pos h] at hp
      refine ih (cur ++ q) (by simp [hcur]) ?_ p hp
      intro u hu; exact hl u (List.mem_cons_of_mem q hu)
    · rw [show mergeAdjAux cs cur (q :: rest) =
            (if cur.length + q.length ≤ cs then mergeAdjAux cs (cur ++ q) rest
             else cur :: mergeAdjAux cs q rest) from rfl, if_neg h] at hp
      rcases List.mem_cons.mp hp with rfl | hp
      · exact hcur
      · refine ih q (hl q (by simp)) ?_ p hp
        intro u hu; exact hl u (List.mem_cons_of_mem q hu)

/-- `mergeAdj` of non empty pieces yields non empty pieces. -/
theorem mergeAdj_ne_nil (cs : Nat) (l : List (List Char)) (hl : ∀ q ∈ l, q ≠ []) :
    ∀ p ∈ mergeAdj cs l, p ≠ [] := by
  cases l with
  | nil => intro p hp; simp [mergeAdj] at hp
  | cons q rest =>
    intro p hp
    refine mergeAdjAux_ne_nil cs rest q (hl q (by simp)) ?_ p hp
    intro u hu; exact hl u (List.mem_cons_of_mem q hu)

/-- Dropping leading whitespace preserves the non whitespace content. -/
theorem stripWs_dropWhile (t : List Char) :
    stripWs (t.dropWhile isWs) = stripWs t := by
  induction t with
  | nil => rfl
  | cons c rest ih =>
    by_cases h : isWs c
    · rw [List.dropWhile_cons, if_pos h, ih]
      unfold stripWs
      rw [List.filter_cons]
      simp [h]
    · rw [List.dropWhile_cons, if_neg h]

/-- Stripping whitespace commutes with reversal. -/
theorem stripWs_reverse (t : List Char) :
    stripWs t.reverse = (stripWs t).reverse :=
  List.filter_reverse _ t

/-- Trimming preserves the non whitespace content. -/
theorem stripWs_trim (t : List Char) :
    stripWs (trim t) = stripWs t := by
  unfold trim
  rw [stripWs_reverse, stripWs_dropWhile, stripWs_reverse, List.reverse_reverse,
    stripWs_dropWhile]

/-- The blank line page join preserves the non whitespace content of the
pages. -/
theorem stripWs_joinPages :
    ∀ (ps : List (List Char)), stripWs (joinPages ps) = (ps.map stripWs).flatten := by
  intro ps
  induction ps with
  | nil => rfl
  | cons p ps ih =>
    cases ps with
    | nil => simp [joinPages]
    | cons q ps =>
      show stripWs (p ++ '\n' :: '\n' :: joinPages (q :: ps)) = _
      unfold stripWs
      rw [List.filter_append, List.filter_cons, List.filter_cons]
      have hnl : (!isWs '\n') = false := by decide
      rw [hnl]
      simp only [Bool.false_eq_true, if_false]
      unfold stripWs at ih
      rw [ih]
      simp

/-- Filtering out empty pages does not change the stripped concatenation. -/
theorem flatten_map_stripWs_filter (l : List (List Char)) :
    ((l.filter (fun t => !t.isEmpty)).map stripWs).flatten = (l.map stripWs).flatten := by
  induction l with
  | nil => rfl
  | cons p rest ih =>
    by_cases hp : p.isEmpty
    · have : p = [] := by simpa [List.isEmpty_iff] using hp
      subst this
      simp [List.filter_cons, ih, stripWs]
    · simp [List.filter_cons, hp, ih]

/-- The extracted document text carries exactly the non whitespace content
of the raw pages. -/
theorem stripWs_extract (pages : List (List Char)) :
    stripWs (joinPages (extractPages pages)) = (pages.map stripWs).flatten := by
  rw [stripWs_joinPages]
  unfold extractPages
  rw [flatten_map_stripWs_filter, List.map_map]
  congr 1
  exact List.map_congr_left (fun p _ => stripWs_trim p)

/-- Stripping the segments and dropping the empty ones does not change the
non whitespace content of the concatenation. -/
theorem stripWs_flatten_stripPieces (l : List (List Char)) :
    stripWs (stripPieces l).flatten = stripWs l.flatten := by
  rw [stripWs_flatten, stripWs_flatten]
  unfold stripPieces
  rw [flatten_map_stripWs_filter, List.map_map]
  congr 1
  exact List.map_congr_left (fun p _ => stripWs_trim p)

/-- Stage 1 of the Chunker preserves the non whitespace content: stripped
of whitespace, its concatenated segments equal the input text. -/
theorem splitRec_stripWs (cs : Nat) :
    ∀ (seps : List (List Char)) (t : List Char),
      stripWs (splitRec cs seps t).flatten = stripWs t := by
  intro seps
  induction seps with
  | nil =>
    intro t
    show stripWs (stripPieces (forceSplit cs t)).flatten = stripWs t
    rw [stripWs_flatten_stripPieces, forceSplit_flatten]
  | cons sep rest ih =>
    intro t
    by_cases hsep : sep.isEmpty
    · simp only [splitRec, hsep, if_true]
      rw [stripWs_flatten_stripPieces, forceSplit_flatten]
    · simp only [splitRec, hsep, Bool.false_eq_true, if_false]
      rw [stripWs_flatten_stripPieces]
      rw [mergeAdj_flatten]
      rw [List.flatten_flatten, List.map_map, stripWs_flatten, List.map_map]
      have hcongr : ∀ p ∈ splitKeep sep t,
          (stripWs ∘ List.flatten ∘ fun p => if cs < p.length then splitRec cs rest p
            else [p]) p = stripWs p := by
        intro p _
        by_cases hp : cs < p.length
        · simp only [Function.comp_apply, hp, if_true]
          exact ih p
        · simp only [Function.comp_apply, hp, if_false]
          simp
      rw [List.map_congr_left hcongr, ← stripWs_flatten, splitKeep_flatten]

/-- The head of a dropWhile residue falsifies the predicate. -/
theorem dropWhile_head_not (p : Char → Bool) :
    ∀ (l : List Char) (c : Char) (cs : List Char), l.dropWhile p = c :: cs →
      p c = false := by
  intro l
  induction l with
  | nil => intro c cs h; simp at h
  | cons x xs ih =>
    intro c cs h
    rw [List.dropWhile_cons] at h
    by_cases hx : p x
    · rw [if_pos hx] at h
      exact ih c cs h
    · rw [if_neg hx] at h
      rcases List.cons.injEq .. ▸ h with ⟨rfl, _⟩
      exact Bool.not_eq_true _ ▸ hx

/-- A trimmed non empty text contains a non whitespace character. -/
theorem stripWs_trim_ne_nil (p : List Char) (h : trim p ≠ []) :
    stripWs (trim p) ≠ [] := by
  unfold trim at h ⊢
  rw [stripWs_reverse, Ne, List.reverse_eq_nil_iff]
  cases hdrop : (p.dropWhile isWs).reverse.dropWhile isWs with
  | nil =>
    rw [hdrop] at h
    simp at h
  | cons c cs =>
    have hc : isWs c = false := dropWhile_head_not isWs _ c cs hdrop
    unfold stripWs
    rw [List.filter_cons]
    simp [hc]

/-- Every stripped piece is non empty and non whitespace only. -/
theorem stripPieces_mem (l : List (List Char)) :
    ∀ s ∈ stripPieces l, s ≠ [] ∧ stripWs s ≠ [] := by
  intro s hs
  unfold stripPieces at hs
  have hne : s ≠ [] := by
    have := (List.mem_filter.mp hs).2
    simpa [List.isEmpty_iff] using this
  rcases List.mem_map.mp (List.mem_filter.mp hs).1 with ⟨p, _, rfl⟩
  exact ⟨hne, stripWs_trim_ne_nil p hne⟩

/-- Every stage 1 segment is non empty and non whitespace only. -/
theorem splitRec_mem (cs : Nat) (seps : List (List Char)) (t : List Char) :
    ∀ s ∈ splitRec cs seps t, s ≠ [] ∧ stripWs s ≠ [] := by
  cases seps with
  | nil => exact stripPieces_mem _
  | cons sep rest =>
    by_cases hsep : sep.isEmpty
    · simp only [splitRec, hsep, if_true]
      exact stripPieces_mem _
    · simp only [splitRec, hsep, Bool.false_eq_true, if_false]
      exact stripPieces_mem _

end Lemmas

open Lemmas

/-- Claim C1: for every document, the concatenation of the chunk texts the
two stage Chunker produces carries exactly the whitespace normalized
content of the Extractor output: stripped of whitespace, the concatenated
corpus equals the extracted and joined document text, which in turn equals
the concatenated non whitespace content of the raw pages.  Chunking neither
drops nor duplicates content beyond whitespace normalization. -/
theorem chunker_coverage (pages : List (List Char)) :
    stripWs (chunkPipeline pages).flatten = stripWs (joinPages (extractPages pages))
    ∧ stripWs (joinPages (extractPages pages)) = (pages.map stripWs).flatten := by
  refine ⟨?_, stripWs_extract pages⟩
  unfold chunkPipeline
  rw [List.flatten_flatten, List.map_map, stripWs_flatten, List.map_map]
  have hcongr : ∀ s ∈ splitRec 1000 sepList (joinPages (extractPages pages)),
      (stripWs ∘ List.flatten ∘ tokenSplit 256) s = stripWs s := by
    intro s _
    exact tokenSplit_coverage 256 (by norm_num) s
  rw [List.map_congr_left hcongr, ← stripWs_flatten, splitRec_stripWs]

/-- Claim C2: every chunk of the final Corpus is non empty, non whitespace
only, and holds at most 256 tokens under the fixed tokenizer. -/
theorem chunk_nonempty_within_budget (pages : List (List Char)) (c : List Char)
    (hc : c ∈ chunkPipeline pages) :
    c ≠ [] ∧ stripWs c ≠ [] ∧ (tokenize c).length ≤ 256 := by
  unfold chunkPipeline at hc
  rcases List.mem_flatten.mp hc with ⟨l, hl, hcl⟩
  rcases List.mem_map.mp hl with ⟨s, hs, rfl⟩
  have hsws : stripWs s ≠ [] :=
    (splitRec_mem 1000 sepList (joinPages (extractPages pages)) s hs).2
  exact tokenSplit_mem 256 (by norm_num) s hsws c hcl

/-- Witness for claim C2 at a concrete one page document. -/
theorem chunk_nonempty_within_budget_witness :
    ['h', 'i'] ≠ [] ∧ stripWs ['h', 'i'] ≠ [] ∧ (tokenize ['h', 'i']).length ≤ 256 :=
  chunk_nonempty_within_budget [['h', 'i']] ['h', 'i'] (by decide)

/-- Claim C9: the Chunker is deterministic; two runs of the full pipeline
on the same page texts with the fixed configuration yield the same chunk
sequence, since the pipeline depends on nothing but its input. -/
theorem chunker_deterministic (pages₁ pages₂ : List (List Char))
    (h : pages₁ = pages₂) :
    chunkPipeline pages₁ = chunkPipeline pages₂ := by
  rw [h]

/-- Witness for claim C9 at a concrete document. -/
theorem chunker_deterministic_witness :
    chunkPipeline [['h', 'i']] = chunkPipeline [['h', 'i']] :=
  chunker_deterministic [['h', 'i']] [['h', 'i']] rfl

namespace Concrete

open Lemmas

/-- A scan that never sees the last separator character cuts nothing. -/
theorem splitKeepAux_no_occ (sep : List Char) (d : Char) (srest : List Char)
    (hsep : sep.reverse = d :: srest) :
    ∀ (t acc : List Char), (∀ x ∈ t, x ≠ d) →
      splitKeepAux sep t acc = [acc.reverse ++ t] := by
  intro t
  induction t with
  | nil => intro acc _; simp [splitKeepAux]
  | cons c rest ih =>
    intro acc ht
    have hc : (sep.reverse.isPrefixOf (c :: acc)) = false := by
      rw [hsep]
      show (d == c && srest.isPrefixOf acc) = false
      have hd : (d == c) = false := beq_eq_false_iff_ne.mpr (Ne.symm (ht c (by simp)))
      rw [hd, Bool.false_and]
    simp only [splitKeepAux, hc, Bool.false_eq_true, if_false]
    rw [ih (c :: acc) (fun x hx => ht x (List.mem_cons_of_mem c hx))]
    simp

/-- One step of the raw character split on an oversized text. -/
theorem forceSplit_step (cs : Nat) (t : List Char) (hcs : 0 < cs) (h : cs < t.length) :
    forceSplit cs t = t.take cs :: forceSplit cs (t.drop cs) := by
  cases t with
  | nil => simp at h
  | cons a l =>
    show forceSplitAux cs ((a :: l).length) (a :: l) = _
    rw [show (a :: l).length = l.length + 1 from rfl]
    rw [show forceSplitAux cs (l.length + 1) (a :: l) =
          (if (a :: l).length ≤ cs ∨ cs = 0 then [a :: l]
           else (a :: l).take cs :: forceSplitAux cs l.length ((a :: l).drop cs)) from rfl]
    rw [if_neg (by simp at h ⊢; omega)]
    congr 1
    exact forceSplitAux_fuel cs l.length ((a :: l).drop cs).length _
      (by rw [List.length_drop]; simp at h ⊢; omega) le_rfl

/-- The raw character split of a text within the budget. -/
theorem forceSplit_small (cs : Nat) (t : List Char) (h : t.length ≤ cs) (ht : t ≠ []) :
    forceSplit cs t = [t] := by
  cases t with
  | nil => exact absurd rfl ht
  | cons a l =>
    show forceSplitAux cs (l.length + 1) (a :: l) = [a :: l]
    rw [show forceSplitAux cs (l.length + 1) (a :: l) =
          (if (a :: l).length ≤ cs ∨ cs = 0 then [a :: l]
           else (a :: l).take cs :: forceSplitAux cs l.length ((a :: l).drop cs)) from rfl]
    rw [if_pos (Or.inl h)]

/-- A run of one letter which is not the last separator character is not
split by that separator. -/
theorem splitKeep_replicate (sep : List Char) (d : Char) (srest : List Char)
    (hsep : sep.reverse = d :: srest) (a : Char) (ha : a ≠ d) (n : Nat) (hn : 0 < n) :
    splitKeep sep (List.replicate n a) = [List.replicate n a] := by
  unfold splitKeep
  rw [splitKeepAux_no_occ sep d srest hsep (List.replicate n a) []
    (fun x hx => by rw [List.eq_of_mem_replicate hx]; exact ha)]
  rw [List.filter_cons]
  have : (!(List.reverse [] ++ List.replicate n a).isEmpty) = true := by
    simp [-List.reduceReplicate, List.isEmpty_iff]
    omega
  rw [this]
  simp [-List.reduceReplicate]

/-- One level of the recursive splitter when the separator does not split
the oversized text. -/
theorem splitRec_step_single (cs : Nat) (sep : List Char) (rest : List (List Char))
    (t : List Char) (hsep : sep.isEmpty = false)
    (hsplit : splitKeep sep t = [t]) (hlen : cs < t.length) :
    splitRec cs (sep :: rest) t = stripPieces (mergeAdj cs (splitRec cs rest t)) := by
  rw [show splitRec cs (sep :: rest) t =
        (if sep.isEmpty then stripPieces (forceSplit cs t)
         else stripPieces (mergeAdj cs (List.flatten ((splitKeep sep t).map
           (fun p => if cs < p.length then splitRec cs rest p else [p]))))) from rfl]
  simp only [hsep, Bool.false_eq_true, if_false, hsplit, List.map_cons, List.map_nil,
    if_pos hlen, List.flatten_cons, List.flatten_nil, List.append_nil]

/-- The recursive splitter with only the empty separator left falls back to
the raw character split, stripped. -/
theorem splitRec_empty_sep (cs : Nat) (t : List Char) :
    splitRec cs [([] : List Char)] t = stripPieces (forceSplit cs t) := rfl

/-- Dropping leading whitespace is the identity on a text whose head is not
whitespace. -/
theorem dropWhile_eq_self_of_head (t : List Char) (c : Char) (hc : t.head? = some c)
    (hw : isWs c = false) : t.dropWhile isWs = t := by
  cases t with
  | nil => simp at hc
  | cons x xs =>
    have hx : x = c := by simpa using hc
    subst hx
    rw [List.dropWhile_cons, if_neg (by simp [hw])]

/-- Trimming is the identity when both ends are non whitespace. -/
theorem trim_eq_self (t : List Char) (c d : Char) (hc : t.head? = some c)
    (hcw : isWs c = false) (hd : t.getLast? = some d) (hdw : isWs d = false) :
    trim t = t := by
  unfold trim
  rw [dropWhile_eq_self_of_head t c hc hcw]
  rw [dropWhile_eq_self_of_head t.reverse d (by rw [List.head?_reverse]; exact hd) hdw]
  exact List.reverse_reverse t

/-- Trimming is the identity on a run of one non whitespace letter. -/
theorem trim_replicate (n : Nat) (a : Char) (ha : isWs a = false) :
    trim (List.replicate n a) = List.replicate n a := by
  cases n with
  | zero => rfl
  | succ m =>
    refine trim_eq_self (List.replicate (m + 1) a) a a ?_ ha ?_ ha
    · rw [List.head?_replicate, if_neg (by omega)]
    · rw [List.getLast?_eq_head?_reverse, List.reverse_replicate, List.head?_replicate,
        if_neg (by omega)]

/-- The three letter run segments are already stripped and non empty. -/
theorem stripPieces_runs (a : Char) (ha : isWs a = false) :
    stripPieces [List.replicate 1000 a, List.replicate 1000 a, List.replicate 500 a] =
      [List.replicate 1000 a, List.replicate 1000 a, List.replicate 500 a] := by
  unfold stripPieces
  rw [List.map_cons, List.map_cons, List.map_cons, List.map_nil]
  rw [trim_replicate 1000 a ha, trim_replicate 500 a ha]
  rw [List.filter_cons, List.filter_cons, List.filter_cons, List.filter_nil]
  have h1 : (!(List.replicate 1000 a).isEmpty) = true := by
    simp [-List.reduceReplicate, List.isEmpty_iff]
  have h5 : (!(List.replicate 500 a).isEmpty) = true := by
    simp [-List.reduceReplicate, List.isEmpty_iff]
  rw [h1, h5]
  simp only [if_pos]

/-- The raw character split of the 2500 letter run. -/
theorem forceSplit_2500 (a : Char) :
    forceSplit 1000 (List.replicate 2500 a) =
      [List.replicate 1000 a, List.replicate 1000 a, List.replicate 500 a] := by
  rw [forceSplit_step 1000 (List.replicate 2500 a) (by norm_num)
    (by rw [List.length_replicate]; norm_num)]
  rw [List.take_replicate, List.drop_replicate]
  norm_num
  rw [forceSplit_step 1000 (List.replicate 1500 a) (by norm_num)
    (by rw [List.length_replicate]; norm_num)]
  rw [List.take_replicate, List.drop_replicate]
  norm_num
  rw [forceSplit_small 1000 (List.replicate 500 a)
    (by rw [List.length_replicate]; norm_num)
    (by rw [Ne, List.replicate_eq_nil_iff]; norm_num)]

/-- The three segments of the 2500 letter run are a fixed point of the
merge. -/
theorem mergeAdj_2500 (a : Char) :
    mergeAdj 1000 [List.replicate 1000 a, List.replicate 1000 a, List.replicate 500 a] =
      [List.replicate 1000 a, List.replicate 1000 a, List.replicate 500 a] := by
  simp [-List.reduceReplicate, mergeAdj, mergeAdjAux]

/-- Stage 1 on the 2500 letter run: every separator level passes the text
through and the final level force splits it. -/
theorem splitRec_2500 :
    splitRec 1000 sepList (List.replicate 2500 'a') =
      [List.replicate 1000 'a', List.replicate 1000 'a', List.replicate 500 'a'] := by
  have hlen : (1000 : Nat) < (List.replicate 2500 'a').length := by
    rw [List.length_replicate]; norm_num
  have h1 : splitKeep ['\n', '\n'] (List.replicate 2500 'a') = [List.replicate 2500 'a'] :=
    splitKeep_replicate ['\n', '\n'] '\n' ['\n'] (by decide) 'a' (by decide) 2500 (by norm_num)
  have h2 : splitKeep ['\n'] (List.replicate 2500 'a') = [List.replicate 2500 'a'] :=
    splitKeep_replicate ['\n'] '\n' [] (by decide) 'a' (by decide) 2500 (by norm_num)
  have h3 : splitKeep ['.', ' '] (List.replicate 2500 'a') = [List.replicate 2500 'a'] :=
    splitKeep_replicate ['.', ' '] ' ' ['.'] (by decide) 'a' (by decide) 2500 (by norm_num)
  have h4 : splitKeep [' '] (List.replicate 2500 'a') = [List.replicate 2500 'a'] :=
    splitKeep_replicate [' '] ' ' [] (by decide) 'a' (by decide) 2500 (by norm_num)
  have hrun := stripPieces_runs 'a' (by decide)
  have hmerge := mergeAdj_2500 'a'
  rw [show sepList = ['\n', '\n'] :: [['\n'], ['.', ' '], [' '], []] from rfl]
  rw [splitRec_step_single 1000 ['\n', '\n'] [['\n'], ['.', ' '], [' '], []]
    (List.replicate 2500 'a') (by decide) h1 hlen]
  rw [splitRec_step_single 1000 ['\n'] [['.', ' '], [' '], []]
    (List.replicate 2500 'a') (by decide) h2 hlen]
  rw [splitRec_step_single 1000 ['.', ' '] [[' '], []]
    (List.replicate 2500 'a') (by decide) h3 hlen]
  rw [splitRec_step_single 1000 [' '] [[]]
    (List.replicate 2500 'a') (by decide) h4 hlen]
  rw [splitRec_empty_sep, forceSplit_2500, hrun, hmerge, hrun, hmerge, hrun, hmerge,
    hrun, hmerge, hrun]

end Concrete

open Concrete

/-- Claim C8: with chunk size 1000 and no overlap, stage 1 of the Chunker
on a 2500 character single paragraph input with none of the natural
separators produces exactly three segments of lengths 1000, 1000 and 500,
by force splitting at the character budget. -/
theorem chunker_force_split_lengths :
    (splitRec 1000 sepList (List.replicate 2500 'a')).map List.length = [1000, 1000, 500] := by
  rw [splitRec_2500]
  simp [-List.reduceReplicate]

/-- Claim C6: the Extractor trims every page, drops exactly the pages that
trim to empty without leaving placeholders (the output is a sublist of the
trimmed pages, so order is preserved), keeps every page that trims to a non
empty text, and a two page document whose second page trims to empty yields
the same corpus as the first page alone. -/
theorem extractor_drops_empty_pages (pages : List (List Char)) (p₁ p₂ : List Char)
    (h : trim p₂ = []) :
    List.Sublist (extractPages pages) (pages.map trim)
    ∧ (∀ t ∈ extractPages pages, t ≠ [])
    ∧ (∀ p ∈ pages, trim p ≠ [] → trim p ∈ extractPages pages)
    ∧ chunkPipeline [p₁, p₂] = chunkPipeline [p₁] := by
  refine ⟨List.filter_sublist _, ?_, ?_, ?_⟩
  · intro t ht
    have := (List.mem_filter.mp ht).2
    simpa [List.isEmpty_iff] using this
  · intro p hp hne
    refine List.mem_filter.mpr ⟨List.mem_map_of_mem trim hp, ?_⟩
    simpa [List.isEmpty_iff] using hne
  · have hx : extractPages [p₁, p₂] = extractPages [p₁] := by
      unfold extractPages
      rw [List.map_cons, List.map_cons, List.map_nil, List.map_cons, List.map_nil, h]
      simp [List.filter_cons]
    unfold chunkPipeline
    rw [hx]

/-- Witness for claim C6 at a concrete two page document whose second page
is a single space. -/
theorem extractor_drops_empty_pages_witness :
    List.Sublist (extractPages [['a'], [' ']]) ([['a'], [' ']].map trim)
    ∧ (∀ t ∈ extractPages [['a'], [' ']], t ≠ [])
    ∧ (∀ p ∈ [['a'], [' ']], trim p ≠ [] → trim p ∈ extractPages [['a'], [' ']])
    ∧ chunkPipeline [['a'], [' ']] = chunkPipeline [['a']] :=
  extractor_drops_empty_pages [['a'], [' ']] ['a'] [' '] (by decide)

/-- Claim C7 counterexample: a parsed document with zero pages does not
make the Extractor fail; it succeeds with an empty page sequence, refuting
the claim that a zero page count raises an extraction error (src/app.py
lines 200-205 apply no page count check). -/
theorem extractor_zero_pages_counterexample :
    extractDoc (some []) = Except.ok [] ∧ isError (extractDoc (some [])) = false := by
  exact ⟨rfl, rfl⟩

/-- Claim C7 (amended): the Extractor fails exactly on a document that
cannot be parsed at all; every parseable document, a zero page one
included, succeeds with its trimmed non empty page texts. -/
theorem extractor_error_iff_unparseable (parsed : Option (List (List Char))) :
    isError (extractDoc parsed) = true ↔ parsed = none := by
  cases parsed <;> simp [extractDoc, isError]

namespace Decimal

/-- Fuel does not matter to the digit expansion once it covers the number. -/
theorem natToDecAux_fuel :
    ∀ (f₁ f₂ n : Nat), n ≤ f₁ → n ≤ f₂ → natToDecAux f₁ n = natToDecAux f₂ n := by
  intro f₁
  induction f₁ with
  | zero =>
    intro f₂ n h₁ _
    have hn : n = 0 := by omega
    subst hn
    cases f₂ with
    | zero => rfl
    | succ f => show [digitChar 0] = if 0 < 10 then [digitChar 0] else _; rw [if_pos (by norm_num)]
  | succ f ih =>
    intro f₂ n h₁ h₂
    by_cases h : n < 10
    · cases f₂ with
      | zero =>
        have hn : n = 0 := by omega
        subst hn
        show (if 0 < 10 then [digitChar 0] else _) = [digitChar 0]
        rw [if_pos (by norm_num)]
      | succ f₂ =>
        show (if n < 10 then [digitChar n] else _) = (if n < 10 then [digitChar n] else _)
        rw [if_pos h, if_pos h]
    · cases f₂ with
      | zero => omega
      | succ f₂ =>
        show (if n < 10 then [digitChar n]
              else natToDecAux f (n / 10) ++ [digitChar (n % 10)]) =
             (if n < 10 then [digitChar n]
              else natToDecAux f₂ (n / 10) ++ [digitChar (n % 10)])
        rw [if_neg h, if_neg h]
        have hd : n / 10 < n := Nat.div_lt_self (by omega) (by norm_num)
        rw [ih f₂ (n / 10) (by omega) (by omega)]

/-- Appending one digit multiplies the value by ten and adds the digit. -/
theorem decVal_append_digit (xs : List Char) (c : Char) :
    decVal (xs ++ [c]) = 10 * decVal xs + digitVal c := by
  unfold decVal
  rw [List.foldl_append]
  rfl

/-- The digit characters decode to their digits. -/
theorem digitVal_digitChar (d : Nat) (hd : d < 10) :
    digitVal (digitChar d) = d := by
  interval_cases d <;> rfl

/-- Parsing the decimal representation recovers the number: `str(i)` is
faithful. -/
theorem decVal_natToDec : ∀ (n : Nat), decVal (natToDec n) = n := by
  intro n
  induction n using Nat.strong_induction_on with
  | _ n ih =>
    by_cases h : n < 10
    · have hx : natToDec n = [digitChar n] := by
        unfold natToDec
        cases n with
        | zero => rfl
        | succ m =>
          show (if m + 1 < 10 then [digitChar (m + 1)] else _) = [digitChar (m + 1)]
          rw [if_pos h]
      rw [hx]
      show 10 * 0 + digitVal (digitChar n) = n
      rw [digitVal_digitChar n h]
      omega
    · cases n with
      | zero => omega
      | succ m =>
        have hx : natToDec (m + 1) =
            natToDecAux m ((m + 1) / 10) ++ [digitChar ((m + 1) % 10)] := by
          unfold natToDec
          show (if m + 1 < 10 then [digitChar (m + 1)]
                else natToDecAux m ((m + 1) / 10) ++ [digitChar ((m + 1) % 10)]) = _
          rw [if_neg h]
        have hfuel : natToDecAux m ((m + 1) / 10) = natToDec ((m + 1) / 10) := by
          have hd : (m + 1) / 10 < m + 1 := Nat.div_lt_self (by omega) (by norm_num)
          exact natToDecAux_fuel m ((m + 1) / 10) ((m + 1) / 10) (by omega) le_rfl
        rw [hx, hfuel, decVal_append_digit]
        rw [ih ((m + 1) / 10) (Nat.div_lt_self (by omega) (by norm_num))]
        rw [digitVal_digitChar ((m + 1) % 10) (Nat.mod_lt _ (by norm_num))]
        omega

/-- The decimal representation is injective. -/
theorem natToDec_inj : Function.Injective natToDec := by
  intro a b h
  rw [← decVal_natToDec a, h, decVal_natToDec]

end Decimal

open Decimal

/-- Claim C10: when a corpus of n chunks is added in one batch, the id of
the chunk at position i is the decimal string of i; the ids are pairwise
distinct and numerically in insertion order, but lexicographic order on the
id strings diverges from insertion order past ten chunks: the id of chunk
10 sorts strictly before the id of chunk 2. -/
theorem ids_decimal (n i : Nat) (hi : i < n) :
    (mkIds n).Nodup
    ∧ (mkIds n)[i]? = some (natToDec i)
    ∧ (mkIds n).map decVal = List.range n
    ∧ lexLt (natToDec 10) (natToDec 2) = true ∧ 2 < 10 := by
  refine ⟨?_, ?_, ?_, by decide, by norm_num⟩
  · exact (List.nodup_range n).map natToDec_inj
  · unfold mkIds
    rw [List.getElem?_map, List.getElem?_range hi]
    rfl
  · unfold mkIds
    rw [List.map_map]
    have hcomp : decVal ∘ natToDec = id := funext decVal_natToDec
    rw [hcomp, List.map_id]

/-- Witness for claim C10 with eleven chunks and the eleventh id. -/
theorem ids_decimal_witness :
    (mkIds 11).Nodup
    ∧ (mkIds 11)[10]? = some (natToDec 10)
    ∧ (mkIds 11).map decVal = List.range 11
    ∧ lexLt (natToDec 10) (natToDec 2) = true ∧ 2 < 10 :=
  ids_decimal 11 10 (by norm_num)

namespace IndexLemmas

/-- Membership in an insertion. -/
theorem mem_insertScored (e : Scored) :
    ∀ (l : List Scored) (x : Scored), x ∈ insertScored e l ↔ x = e ∨ x ∈ l := by
  intro l
  induction l with
  | nil => intro x; simp [insertScored]
  | cons y ys ih =>
    intro x
    simp only [insertScored]
    by_cases h : y.2.2 ≤ e.2.2
    · rw [if_pos h, List.mem_cons, ih x, List.mem_cons]
      tauto
    · rw [if_neg h, List.mem_cons, List.mem_cons]

/-- Insertion grows the candidate list by one. -/
theorem length_insertScored (e : Scored) :
    ∀ (l : List Scored), (insertScored e l).length = l.length + 1 := by
  intro l
  induction l with
  | nil => rfl
  | cons y ys ih =>
    simp only [insertScored]
    by_cases h : y.2.2 ≤ e.2.2
    · rw [if_pos h]
      simp only [List.length_cons, ih]
    · rw [if_neg h]
      simp only [List.length_cons]

/-- Inserting a candidate later than everything in an ordered candidate
list keeps the list ordered, ties broken by insertion position. -/
theorem insertScored_pairwise (e : Scored) :
    ∀ (l : List Scored), l.Pairwise scoredBefore → (∀ x ∈ l, x.1 < e.1) →
      (insertScored e l).Pairwise scoredBefore := by
  intro l
  induction l with
  | nil => intro _ _; simp [insertScored, List.pairwise_cons]
  | cons y ys ih =>
    intro hl hix
    rcases List.pairwise_cons.mp hl with ⟨hy, hys⟩
    simp only [insertScored]
    by_cases h : y.2.2 ≤ e.2.2
    · rw [if_pos h, List.pairwise_cons]
      constructor
      · intro x hx
        rcases (mem_insertScored e ys x).mp hx with rfl | hx
        · rcases lt_or_eq_of_le h with h | h
          · exact Or.inl h
          · exact Or.inr ⟨h, hix y (by simp)⟩
        · exact hy x hx
      · exact ih hys (fun x hx => hix x (List.mem_cons_of_mem y hx))
    · rw [if_neg h, List.pairwise_cons]
      constructor
      · intro x hx
        rcases List.mem_cons.mp hx with rfl | hx
        · exact Or.inl (lt_of_not_le h)
        · rcases hy x hx with hlt | ⟨heq, _⟩
          · exact Or.inl (lt_trans (lt_of_not_le h) hlt)
          · exact Or.inl (heq ▸ lt_of_not_le h)
      · exact hl

/-- The stable insertion sort of candidates with strictly increasing
insertion positions is ordered, ties broken by insertion position. -/
theorem sortScored_pairwise_aux :
    ∀ (l acc : List Scored), l.Pairwise (fun a b => a.1 < b.1) →
      acc.Pairwise scoredBefore → (∀ x ∈ acc, ∀ y ∈ l, x.1 < y.1) →
      (List.foldl (fun acc e => insertScored e acc) acc l).Pairwise scoredBefore := by
  intro l
  induction l with
  | nil => intro acc _ hacc _; exact hacc
  | cons e l ih =>
    intro acc hl hacc hcross
    rcases List.pairwise_cons.mp hl with ⟨he, hl⟩
    show (List.foldl (fun acc e => insertScored e acc) (insertScored e acc) l).Pairwise
      scoredBefore
    refine ih (insertScored e acc) hl
      (insertScored_pairwise e acc hacc (fun x hx => hcross x hx e (by simp))) ?_
    intro x hx y hy
    rcases (mem_insertScored e acc x).mp hx with rfl | hx
    · exact he y hy
    · exact hcross x hx y (List.mem_cons_of_mem e hy)

/-- The sort preserves the number of candidates. -/
theorem length_sortScored_aux :
    ∀ (l acc : List Scored),
      (List.foldl (fun acc e => insertScored e acc) acc l).length = acc.length + l.length := by
  intro l
  induction l with
  | nil => intro acc; simp
  | cons e l ih =>
    intro acc
    show (List.foldl (fun acc e => insertScored e acc) (insertScored e acc) l).length = _
    rw [ih (insertScored e acc), length_insertScored]
    simp only [List.length_cons]
    omega

/-- The sorted candidates have the same length as the entry list. -/
theorem length_sortScored (idx : Index) (qv : List Int) :
    (sortScored (idx.scored qv)).length = idx.entries.length := by
  unfold sortScored
  rw [length_sortScored_aux]
  simp [Index.scored]

/-- The scored candidates carry strictly increasing insertion positions. -/
theorem scored_pairwise_fst (idx : Index) (qv : List Int) :
    (idx.scored qv).Pairwise (fun a b => a.1 < b.1) := by
  unfold Index.scored
  rw [List.pairwise_map]
  have h := List.pairwise_lt_range idx.entries.length
  rw [← List.enum_map_fst idx.entries, List.pairwise_map] at h
  exact h

/-- The sorted candidate list of any query is ordered, ties broken by
insertion position. -/
theorem sortScored_pairwise (idx : Index) (qv : List Int) :
    (sortScored (idx.scored qv)).Pairwise scoredBefore :=
  sortScored_pairwise_aux (idx.scored qv) [] (scored_pairwise_fst idx qv)
    List.Pairwise.nil (by simp)

end IndexLemmas

open IndexLemmas

/-- Claim C3: for every Index state and every query with a positive top k,
the query succeeds with a result of exactly min top k and corpus size many
candidates, in non decreasing distance order, equal distance candidates
ordered by insertion position, and without duplicates. -/
theorem index_query_spec (idx : Index) (qv : List Int) (k : Int) (hk : 0 < k) :
    ∃ res, idx.query qv k = Except.ok res
      ∧ res.length = min k.toNat idx.entries.length
      ∧ res.Pairwise (fun a b => a.2.2 ≤ b.2.2)
      ∧ res.Pairwise scoredBefore
      ∧ res.Nodup := by
  refine ⟨(sortScored (idx.scored qv)).take k.toNat, ?_, ?_, ?_, ?_, ?_⟩
  · unfold Index.query
    rw [if_neg (by omega)]
  · rw [List.length_take, length_sortScored]
  · refine List.Pairwise.imp ?_
      (List.Pairwise.sublist (List.take_sublist _ _) (sortScored_pairwise idx qv))
    intro a b h
    rcases h with h | ⟨h, _⟩
    · exact le_of_lt h
    · exact le_of_eq h
  · exact List.Pairwise.sublist (List.take_sublist _ _) (sortScored_pairwise idx qv)
  · have h := List.Pairwise.sublist (List.take_sublist k.toNat _) (sortScored_pairwise idx qv)
    refine List.Pairwise.imp ?_ h
    intro a b hab
    intro hEq
    subst hEq
    rcases hab with hab | ⟨_, hab⟩
    · exact lt_irrefl _ hab
    · exact lt_irrefl _ hab

/-- Witness for claim C3: a three entry index queried with top k five. -/
theorem index_query_spec_witness :
    ∃ res, Index.query ⟨[⟨['0'], ['x'], [0]⟩, ⟨['1'], ['y'], [3]⟩, ⟨['2'], ['z'], [5]⟩]⟩
        [1] 5 = Except.ok res
      ∧ res.length = min (5 : Int).toNat
          (Index.mk [⟨['0'], ['x'], [0]⟩, ⟨['1'], ['y'], [3]⟩, ⟨['2'], ['z'], [5]⟩]).entries.length
      ∧ res.Pairwise (fun a b => a.2.2 ≤ b.2.2)
      ∧ res.Pairwise scoredBefore
      ∧ res.Nodup :=
  index_query_spec ⟨[⟨['0'], ['x'], [0]⟩, ⟨['1'], ['y'], [3]⟩, ⟨['2'], ['z'], [5]⟩]⟩ [1] 5
    (by norm_num)

/-- Claim C4: `add` is all or nothing.  A successful add followed by an add
whose batch embedding fails or returns a mismatched count leaves exactly
the first call's entries in the index: the second call fails, commits
nothing, and every query sees only the first call's entries. -/
theorem index_add_atomic (st st' : Index) (c₁ c₂ : List (List Char))
    (vs₁ : List (List Int)) (r₂ : EmbedResult)
    (h₁ : st.add c₁ (EmbedResult.ok vs₁) = Except.ok st')
    (h₂ : r₂ = EmbedResult.fail ∨ ∀ vs, r₂ = EmbedResult.ok vs → vs.length ≠ c₂.length) :
    (∃ e, st'.add c₂ r₂ = Except.error e)
    ∧ st'.addOrKeep c₂ r₂ = st'
    ∧ st'.entries = st.entries ++ mkEntries st.entries.length c₁ vs₁
    ∧ ∀ qv k, (st'.addOrKeep c₂ r₂).query qv k = st'.query qv k := by
  have herr : ∃ e, st'.add c₂ r₂ = Except.error e := by
    cases r₂ with
    | fail => exact ⟨IndexErr.embedFailed, rfl⟩
    | ok vs =>
      rcases h₂ with h₂ | h₂
      · cases h₂
      · refine ⟨IndexErr.countMismatch, ?_⟩
        simp only [Index.add]
        rw [if_neg (h₂ vs rfl)]
  rcases herr with ⟨e, he⟩
  have hkeep : st'.addOrKeep c₂ r₂ = st' := by
    unfold Index.addOrKeep
    rw [he]
  refine ⟨⟨e, he⟩, hkeep, ?_, ?_⟩
  · simp only [Index.add] at h₁
    by_cases hv : vs₁.length = c₁.length
    · rw [if_pos hv] at h₁
      cases h₁
      rfl
    · rw [if_neg hv] at h₁
      cases h₁
  · intro qv k
    rw [hkeep]

/-- Witness for claim C4: an empty index, a successful one chunk add, then
a failing embedding call. -/
theorem index_add_atomic_witness :
    (∃ e, Index.add ⟨[⟨['0'], ['x'], [2]⟩]⟩ [['y']] EmbedResult.fail = Except.error e)
    ∧ Index.addOrKeep ⟨[⟨['0'], ['x'], [2]⟩]⟩ [['y']] EmbedResult.fail = ⟨[⟨['0'], ['x'], [2]⟩]⟩
    ∧ (Index.mk [⟨['0'], ['x'], [2]⟩]).entries =
        (Index.mk []).entries ++ mkEntries (Index.mk []).entries.length [['x']] [[2]]
    ∧ ∀ qv k, (Index.addOrKeep ⟨[⟨['0'], ['x'], [2]⟩]⟩ [['y']] EmbedResult.fail).query qv k =
        Index.query ⟨[⟨['0'], ['x'], [2]⟩]⟩ qv k :=
  index_add_atomic ⟨[]⟩ ⟨[⟨['0'], ['x'], [2]⟩]⟩ [['x']] [['y']] [[2]] EmbedResult.fail
    rfl (Or.inl rfl)

/-- Claim C5: querying an empty Index with a positive top k is not an
error: it returns the empty result; only a non positive top k is rejected,
on any index. -/
theorem index_query_empty (qv : List Int) (k k' : Int) (idx : Index)
    (hk : 0 < k) (hk' : k' ≤ 0) :
    Index.query ⟨[]⟩ qv k = Except.ok []
    ∧ idx.query qv k' = Except.error IndexErr.invalidTopK := by
  constructor
  · unfold Index.query
    rw [if_neg (by omega)]
    have hempty : sortScored (Index.scored ⟨[]⟩ qv) = [] := rfl
    rw [hempty, List.take_nil]
  · unfold Index.query
    rw [if_pos hk']

/-- Witness for claim C5 with top k five and top k zero. -/
theorem index_query_empty_witness :
    Index.query ⟨[]⟩ [0] 5 = Except.ok []
    ∧ Index.query ⟨[]⟩ [0] 0 = Except.error IndexErr.invalidTopK :=
  index_query_empty [0] 5 0 ⟨[]⟩ (by norm_num) (by norm_num)

end IDP
